import Mathlib

/-!
Verification of the RSS news pipeline (`fetch_news.py`).

The file shallowly embeds the pure core of the program:
* feed-entry merging, sorting and deduplication (`merge_sort_dedupe`),
* incremental selection against a durable seen set (`filter_new_items`),
* the chained/cached translation bridge (`translate_to_zh`),
* lead-paragraph extraction over an HTML tree model (`extract_first_paragraph`),
* durable-state loading (`load_seen`, `load_translate_cache`) over a JSON value model,
* the main run skeleton (`main_run`).

Machine/runtime conventions of the embedding:
* Python `str` is `String`; `len` on `str` counts characters, matching
  `String.length`. String primitives the source uses (`strip`, `lower`, `in`,
  whitespace collapsing, host extraction) are implemented below by structural
  recursion on the character list, so that every theorem can be evaluated on
  concrete inputs by `decide`/`rfl`. `strip`/whitespace handling uses
  `Char.isWhitespace` (space, tab, CR, LF) for Python's `\s`.
* Python `dict` (insertion ordered) is a `List (String × _)` with first-match
  lookup and in-place value update on key collision.
* Python `set` is `Finset String`.
* `_published_ts` (a POSIX timestamp) is modelled as `Int`; only its ordering and
  its printed form for the `__empty__` fallback key matter to the program.
* A JSON file's content is `Option JValue`: `none` models a missing file or one
  whose bytes fail to parse (both are turned into the caller's default by
  `load_json`'s `try/except`).
* Code that can raise an uncaught Python exception is modelled with `Except`.
-/

/-! ## Character-list string primitives -/

/-- Strip leading and trailing whitespace from a character list. -/
def trimChars (cs : List Char) : List Char :=
  ((cs.dropWhile Char.isWhitespace).reverse.dropWhile Char.isWhitespace).reverse

/-- Python `s.strip()`. -/
def pyStrip (s : String) : String := ⟨trimChars s.toList⟩

/-- Python `s.lower()` (ASCII case folding, which is all the source compares). -/
def pyLower (s : String) : String := ⟨s.toList.map Char.toLower⟩

/-- Substring containment, modelling Python's `needle in haystack`. -/
def strContains (haystack needle : String) : Bool :=
  let hs := haystack.toList
  let nd := needle.toList
  (List.range (hs.length + 1)).any (fun i => nd.isPrefixOf (hs.drop i))

/-- The whitespace-separated words of a character list (`acc` carries the
current word reversed). -/
def wordsAux : List Char → List Char → List (List Char)
  | [], acc => if acc = [] then [] else [acc.reverse]
  | c :: cs, acc =>
    if c.isWhitespace then
      if acc = [] then wordsAux cs [] else acc.reverse :: wordsAux cs []
    else wordsAux cs (c :: acc)

/-- Join character-list words with a separator. -/
def joinWith (sep : List Char) : List (List Char) → List Char
  | [] => []
  | [w] => w
  | w :: ws => w ++ sep ++ joinWith sep ws

/-- Join strings with a single-space separator. -/
def joinSpace (xs : List String) : String :=
  ⟨joinWith [' '] (xs.map String.toList)⟩

/-! ## Basic utilities of the source (`safe_get_str`, `normalize_text`,
`build_item_key`) -/

/-- `safe_get_str(value, default)`: `None` or a blank string becomes the default,
otherwise the stripped string. -/
def safe_get_str (value : Option String) (dflt : String) : String :=
  match value with
  | none => dflt
  | some v => let s := pyStrip v; if s = "" then dflt else s

/-- `normalize_text(s)`: `re.sub(r"\s+", " ", s).strip()` — collapse whitespace
runs to single spaces and trim, i.e. join the whitespace-separated words with
single spaces. -/
def normalize_text (s : String) : String :=
  ⟨joinWith [' '] (wordsAux s.toList [])⟩

/-- `build_item_key(title, link)`: `link if link else title`. -/
def build_item_key (title link : String) : String :=
  if link = "" then title else link

/-! ## Feed entries -/

/-- One merged feed item as built by `fetch_and_parse_one_feed`: the dict
`{title, link, published, source, _published_ts, _key}` where `title`, `link`
have already gone through `safe_get_str` and `_key = build_item_key(title, link)`
(so `_key` is recomputed here rather than stored). -/
structure Entry where
  title : String
  link : String
  published : String
  source : String
  pubTs : Int
  deriving Repr, DecidableEq

/-- The `_key` field set at construction (line 492 of the source). -/
def entry_key (it : Entry) : String :=
  build_item_key it.title it.link

/-- `safe_get_str(it.get("_key"), default="")` as read by the merge and filter loops. -/
def filterKey (it : Entry) : String :=
  safe_get_str (some (entry_key it)) ""

/-! ## `merge_sort_dedupe` -/

/-- The sort relation of `sorted(items, key=lambda x: x.get("_published_ts", 0),
reverse=True)`: published timestamp descending. Python's sort is stable; a stable
sort for this total preorder is extensionally unique, and `List.insertionSort`
below computes it (its stability is proved in `sort_by_ts_desc_stable`). -/
def tsGE (a b : Entry) : Prop := b.pubTs ≤ a.pubTs

instance : DecidableRel tsGE := fun a b => Int.decLe b.pubTs a.pubTs

instance : IsTotal Entry tsGE := ⟨fun a b => le_total b.pubTs a.pubTs⟩

instance : IsTrans Entry tsGE := ⟨fun _ _ _ h1 h2 => le_trans h2 h1⟩

/-- `items_sorted = sorted(items, key=..., reverse=True)` (stable, descending). -/
def sort_by_ts_desc (items : List Entry) : List Entry :=
  List.insertionSort tsGE items

/-- The dedupe key of the loop body: `safe_get_str(it.get("_key"), "")`, replaced by
`f"__empty__{it.get('_published_ts', 0)}"` when falsy. -/
def dedupeKey (it : Entry) : String :=
  let key := filterKey it
  if key = "" then "__empty__" ++ toString it.pubTs else key

/-- The dedupe loop of `merge_sort_dedupe`, threading `seen_in_run`. -/
def dedupe_go (seen_in_run : Finset String) : List Entry → List Entry
  | [] => []
  | it :: rest =>
    let key := dedupeKey it
    if key ∈ seen_in_run then dedupe_go seen_in_run rest
    else it :: dedupe_go (insert key seen_in_run) rest

/-- `merge_sort_dedupe(items)`: stable-sort by timestamp descending, then keep the
first occurrence of each key. -/
def merge_sort_dedupe (items : List Entry) : List Entry :=
  dedupe_go ∅ (sort_by_ts_desc items)

/-! ## `filter_new_items` -/

/-- The `mode_new` loop of `filter_new_items`: membership is tested against the
original `seen_before` while additions go to the running `updated` set. -/
def filter_new_loop (seen_before : Finset String) :
    List Entry → Finset String → List Entry × Finset String
  | [], updated => ([], updated)
  | it :: rest, updated =>
    let k := filterKey it
    if k = "" then filter_new_loop seen_before rest updated
    else
      let tailRes := filter_new_loop seen_before rest (insert k updated)
      if k ∉ seen_before then (it :: tailRes.1, tailRes.2) else tailRes

/-- `filter_new_items(items, seen_before, mode_new)`; `mode_new = false` is `ALL`
mode, `mode_new = true` is `NEW_ONLY`. -/
def filter_new_items (items : List Entry) (seen_before : Finset String)
    (mode_new : Bool) : List Entry × Finset String :=
  if mode_new = false then
    (items, items.foldl
      (fun s it => let k := filterKey it; if k = "" then s else insert k s)
      seen_before)
  else
    filter_new_loop seen_before items seen_before

/-! ## Translation bridge (`detect_lang_simple`, Argos wrappers, `translate_to_zh`) -/

/-- The in-memory translation cache: a Python dict `str -> str`, i.e. an
insertion-ordered association list with unique keys. -/
abbrev Cache := List (String × String)

/-- First-match dict lookup (`key in cache` / `cache[key]`). -/
def dictFind (c : Cache) (k : String) : Option String :=
  List.lookup k c

/-- Python dict assignment `cache[key] = v`: update in place when the key exists
(keeping its position), otherwise append at the end (insertion order). -/
def dictInsert (c : Cache) (k v : String) : Cache :=
  match dictFind c k with
  | some _ => c.map (fun p => if p.1 = k then (k, v) else p)
  | none => c ++ [(k, v)]

/-- Hiragana (U+3040–U+309F) or katakana (U+30A0–U+30FF). -/
def isKana (ch : Char) : Bool :=
  (0x3040 ≤ ch.toNat && ch.toNat ≤ 0x309F) || (0x30A0 ≤ ch.toNat && ch.toNat ≤ 0x30FF)

/-- Count of characters whose lowercasing lands in `a`–`z`. -/
def asciiLetterCount (text : String) : Nat :=
  (text.toList.filter (fun c => ('a' ≤ c.toLower && c.toLower ≤ 'z'))).length

/-- `detect_lang_simple`: kana present means `ja`; a high ASCII-letter ratio means
`en`; otherwise `ja`. `int(len(text) * 0.2)` is embedded as `text.length * 2 / 10`
(the float form rounds to the same integer for all lengths that occur here). -/
def detect_lang_simple (text : String) : String :=
  if text = "" then "unknown"
  else if text.toList.any isKana then "ja"
  else if max 10 (text.length * 2 / 10) ≤ asciiLetterCount text then "en"
  else "ja"

/-- The translation engine boundary: `available` models a successful
`import argostranslate`, `pairs` the installed language pairs, and `tr` the
underlying `translation.translate` call. -/
structure Engine where
  available : Bool
  pairs : List (String × String)
  tr : String → String → String → String

/-- `argos_has_pair(from_code, to_code)`. -/
def argos_has_pair (e : Engine) (from_code to_code : String) : Bool :=
  e.available && e.pairs.any (fun p => p.1 = from_code && p.2 = to_code)

/-- `argos_translate(text, from_code, to_code)`: empty when the engine is missing,
the text is blank, or the pair is not installed (exceptions also yield `""`). -/
def argos_translate (e : Engine) (text from_code to_code : String) : String :=
  if e.available = false then ""
  else if pyStrip text = "" then ""
  else if argos_has_pair e from_code to_code then e.tr text from_code to_code
  else ""

/-- The `(sourceLang, "zh", text)` cache key `f"{lang}::zh::{text}"`. -/
def zhKey (lang text : String) : String := lang ++ "::zh::" ++ text

/-- `translate_to_zh(text, cache)`: returns the translation and the cache after the
call (the Python function mutates `cache` in place). -/
def translate_to_zh (e : Engine) (text : String) (cache : Cache) : String × Cache :=
  if text = "" ∨ pyStrip text = "" then ("", cache)
  else
    let lang := detect_lang_simple text
    let key := zhKey lang text
    match dictFind cache key with
    | some v => (v, cache)
    | none =>
      if lang = "en" then
        let out := pyStrip (argos_translate e text "en" "zh")
        (out, dictInsert cache key out)
      else if lang = "ja" then
        if argos_has_pair e "ja" "zh" then
          let out := pyStrip (argos_translate e text "ja" "zh")
          (out, dictInsert cache key out)
        else
          let mid_key := "ja::en::" ++ text
          let midRes :=
            match dictFind cache mid_key with
            | some m => (m, cache)
            | none =>
              let m := pyStrip (argos_translate e text "ja" "en")
              (m, dictInsert cache mid_key m)
          let mid := midRes.1
          let cache1 := midRes.2
          if mid = "" then ("", dictInsert cache1 key "")
          else
            let out_key2 := "en::zh::" ++ mid
            let outRes :=
              match dictFind cache1 out_key2 with
              | some v => (v, cache1)
              | none =>
                let v := pyStrip (argos_translate e mid "en" "zh")
                (v, dictInsert cache1 out_key2 v)
            let out := outRes.1
            let cache2 := outRes.2
            (out, dictInsert cache2 key out)
      else
        let out := pyStrip (argos_translate e text "en" "zh")
        (out, dictInsert cache key out)

/-! ## HTML model and lead-paragraph extraction -/

/-- A parsed HTML node (the BeautifulSoup tree): an element carries its tag name,
`id` attribute (empty when absent), `class` list and children, in document order. -/
inductive Node where
  | text : String → Node
  | elem : String → String → List String → List Node → Node

/-- Is this element one of the tags removed by
`for tag in soup(["script", "style", "noscript"]): tag.decompose()`? -/
def isDecomposed : Node → Bool
  | .text _ => false
  | .elem t _ _ _ => t = "script" || t = "style" || t = "noscript"

mutual
/-- The document after `decompose()` of script/style/noscript subtrees. -/
def scrubNode : Node → Node
  | .text s => .text s
  | .elem t i cls ch => .elem t i cls (scrubList ch)
termination_by structural n => n

def scrubList : List Node → List Node
  | [] => []
  | n :: ns =>
    if isDecomposed n then scrubList ns else scrubNode n :: scrubList ns
termination_by structural l => l
end

mutual
/-- All descendant text-node strings, in document order (`Tag._all_strings`). -/
def nodeTexts : Node → List String
  | .text s => [s]
  | .elem _ _ _ ch => listTexts ch
termination_by structural n => n

def listTexts : List Node → List String
  | [] => []
  | n :: ns => nodeTexts n ++ listTexts ns
termination_by structural l => l
end

/-- `p.get_text(" ", strip=True)`: strip each descendant string, drop the blank
ones, join with a single space. -/
def get_text_sep_strip (n : Node) : String :=
  joinSpace (((nodeTexts n).map pyStrip).filter (fun s => s ≠ ""))

/-- Is this node itself a `p` element (as a singleton list)? -/
def selfP : Node → List Node
  | .text _ => []
  | .elem t i cls ch => if t = "p" then [.elem t i cls ch] else []

mutual
/-- `container.find_all("p")`: every descendant `p` element, document order. -/
def nodeDescPs : Node → List Node
  | .text _ => []
  | .elem _ _ _ ch => listDescPs ch
termination_by structural n => n

def listDescPs : List Node → List Node
  | [] => []
  | n :: ns => selfP n ++ nodeDescPs n ++ listDescPs ns
termination_by structural l => l
end

/-- Does an element match one of the CSS selectors the source uses: `#id`,
`.class`, or a bare tag name? -/
def matchesSel (sel : String) (n : Node) : Bool :=
  match n with
  | .text _ => false
  | .elem t i cls _ =>
    match sel.toList with
    | '#' :: rest => i = ⟨rest⟩
    | '.' :: rest => cls.contains (⟨rest⟩ : String)
    | _ => t = sel

mutual
/-- `soup.select_one(sel)`: first matching descendant element in document order. -/
def selOneNode (sel : String) : Node → Option Node
  | .text _ => none
  | .elem _ _ _ ch => selOneList sel ch
termination_by structural n => n

def selOneList (sel : String) : List Node → Option Node
  | [] => none
  | n :: ns =>
    ((if matchesSel sel n then some n else selOneNode sel n).orElse
      (fun _ => selOneList sel ns))
termination_by structural l => l
end

/-- The normalized text of a paragraph element:
`normalize_text(p.get_text(" ", strip=True))`. -/
def pText (p : Node) : String :=
  normalize_text (get_text_sep_strip p)

/-- `"cookie" in t.lower()`. -/
def mentionsCookie (t : String) : Bool :=
  strContains (pyLower t) "cookie"

/-- The acceptance test of `pick_first_p`:
`len(t) >= 25 and "cookie" not in t.lower()`. -/
def goodPara (t : String) : Bool :=
  25 ≤ t.length && !(mentionsCookie t)

/-- The acceptance test of the final whole-document loop: `len(t) >= 25` only. -/
def longPara (t : String) : Bool :=
  25 ≤ t.length

/-- The scanning loop inside `pick_first_p`. -/
def firstGoodP : List Node → String
  | [] => ""
  | p :: ps => let t := pText p; if goodPara t then t else firstGoodP ps

/-- The final whole-document scanning loop of `extract_first_paragraph`. -/
def firstLongP : List Node → String
  | [] => ""
  | p :: ps => let t := pText p; if longPara t then t else firstLongP ps

/-- `pick_first_p(container)`. -/
def pick_first_p (container : Option Node) : String :=
  match container with
  | none => ""
  | some c => firstGoodP (nodeDescPs c)

/-- The character list after the first occurrence of a pattern, if any. -/
def afterSubstr (pat : List Char) : List Char → Option (List Char)
  | [] => none
  | c :: cs =>
    if pat.isPrefixOf (c :: cs) then some ((c :: cs).drop pat.length)
    else afterSubstr pat cs

/-- `urlparse(url).netloc.lower()` for ordinary `scheme://host/...` URLs: the part
after `://` up to the next `/`, `?` or `#`, lowercased; a URL without `://` has an
empty netloc. -/
def urlHost (url : String) : String :=
  match afterSubstr [':', '/', '/'] url.toList with
  | none => ""
  | some rest => pyLower ⟨rest.takeWhile (fun c => c ≠ '/' && c ≠ '?' && c ≠ '#')⟩

/-- First non-empty result of the NHK candidate loop. -/
def firstNonEmptyStr : List String → String
  | [] => ""
  | s :: ss => if s ≠ "" then s else firstNonEmptyStr ss

/-- `extract_first_paragraph(url, html)`, taking the parsed document in place of
the raw HTML (BeautifulSoup parsing is the external collaborator). -/
def extract_first_paragraph (url : String) (doc : Node) : String :=
  let soup := scrubNode doc
  let host := urlHost url
  let nhk :=
    if strContains host "nhk.or.jp" then
      firstNonEmptyStr
        [ pick_first_p (selOneNode "#js-article-body" soup)
        , pick_first_p (selOneNode ".content--detail-body" soup)
        , pick_first_p (selOneNode "article" soup)
        , pick_first_p (selOneNode "main" soup) ]
    else ""
  if nhk ≠ "" then nhk
  else
    let bbc :=
      if strContains host "bbc." then
        pick_first_p ((selOneNode "article" soup).orElse (fun _ => selOneNode "main" soup))
      else ""
    if bbc ≠ "" then bbc
    else
      let c := ((selOneNode "article" soup).orElse
        (fun _ => selOneNode "main" soup)).getD soup
      let t := pick_first_p (some c)
      if t ≠ "" then t
      else firstLongP (nodeDescPs soup)

/-! ## JSON values and durable state (`load_seen`, `load_translate_cache`) -/

/-- A parsed JSON value (`json.load` result). Numbers are modelled as `Int`:
no claim depends on float-valued JSON numbers. -/
inductive JValue where
  | jnull : JValue
  | jbool : Bool → JValue
  | jnum : Int → JValue
  | jstr : String → JValue
  | jarr : List JValue → JValue
  | jobj : List (String × JValue) → JValue

mutual
/-- Python `repr` of a parsed JSON value (string escaping simplified; only the
string case is ever exercised by the theorems below). -/
def jvalToPyRepr : JValue → String
  | .jnull => "None"
  | .jbool b => if b then "True" else "False"
  | .jnum n => toString n
  | .jstr s => "\x27" ++ s ++ "\x27"
  | .jarr xs => "[" ++ ⟨joinWith [',', ' '] ((jlistRepr xs).map String.toList)⟩ ++ "]"
  | .jobj fs => "\x7b" ++ ⟨joinWith [',', ' '] ((jfieldsRepr fs).map String.toList)⟩ ++ "\x7d"

def jlistRepr : List JValue → List String
  | [] => []
  | v :: vs => jvalToPyRepr v :: jlistRepr vs

def jfieldsRepr : List (String × JValue) → List String
  | [] => []
  | f :: fs => ("\x27" ++ f.1 ++ "\x27: " ++ jvalToPyRepr f.2) :: jfieldsRepr fs
end

/-- Python `str(x)` as applied by `load_seen` to each member of the seen list. -/
def jvalToPyStr : JValue → String
  | .jstr s => s
  | v => jvalToPyRepr v

/-- Parsed-JSON-object lookup (`data.get(key)`); `json.load` keeps one value per
key, so first-match lookup is adequate. -/
def jlookup (fields : List (String × JValue)) (k : String) : Option JValue :=
  List.lookup k fields

/-- `load_seen(file_path)`. The argument is the file's parsed content; `none`
models a missing file or unparseable bytes (the default of `load_json`). When the
file parses to a non-object, `data.get("seen", [])` raises `AttributeError`,
which no handler in the program catches. -/
def load_seen (file : Option JValue) : Except String (Finset String) :=
  let data := file.getD (.jobj [("seen", .jarr [])])
  match data with
  | .jobj fields =>
    match (jlookup fields "seen").getD (.jarr []) with
    | .jarr xs => .ok (xs.map jvalToPyStr).toFinset
    | _ => .ok ∅
  | _ => .error "AttributeError: object has no attribute get"

/-- `load_translate_cache()`: non-object content becomes the empty mapping; a
persisted mapping of more than 30000 entries is cut down to its last 20000
entries (`list(data.items())[-20000:]`), i.e. the oldest are dropped. -/
def load_translate_cache (file : Option JValue) : List (String × JValue) :=
  match file.getD (.jobj []) with
  | .jobj fields =>
    if 30000 < fields.length then fields.drop (fields.length - 20000) else fields
  | _ => []

/-- `save_translate_cache(cache)`: the JSON document written back — the cache
itself, with no eviction or truncation on this path. -/
def save_translate_cache (cache : List (String × JValue)) : JValue :=
  .jobj cache

/-! ## The main run (`main`) -/

/-- A selected item after the snippet and translation stages: the entry dict
plus its `snippet`, `title_zh`, `snippet_zh` fields. -/
structure EnrichedRec where
  base : Entry
  snippet : String
  title_zh : String
  snippet_zh : String
  deriving Repr, DecidableEq

/-- One record of the output artifact, as built by `cleanup_internal_fields`. -/
structure OutItem where
  title : String
  title_zh : String
  snippet : String
  snippet_zh : String
  link : String
  published : String
  source : String
  deriving Repr, DecidableEq

/-- `cleanup_internal_fields(items)`. -/
def cleanup_internal_fields (items : List EnrichedRec) : List OutItem :=
  items.map (fun it =>
    { title := it.base.title
      title_zh := it.title_zh
      snippet := it.snippet
      snippet_zh := it.snippet_zh
      link := it.base.link
      published := it.base.published
      source := it.base.source })

/-- The JSON record of one output item. -/
def outItemJson (o : OutItem) : JValue :=
  .jobj
    [ ("title", .jstr o.title)
    , ("title_zh", .jstr o.title_zh)
    , ("snippet", .jstr o.snippet)
    , ("snippet_zh", .jstr o.snippet_zh)
    , ("link", .jstr o.link)
    , ("published", .jstr o.published)
    , ("source", .jstr o.source) ]

/-- `write_json(file_path, items)`: the JSON document written to the artifact. -/
def write_json (items : List OutItem) : JValue :=
  .jarr (items.map outItemJson)

/-- One iteration of the translation loop of `main`: translate the title when
non-empty, then the snippet when non-empty, threading the cache. -/
def translate_step (e : Engine) (acc : List EnrichedRec × Cache)
    (p : Entry × String) : List EnrichedRec × Cache :=
  let it := p.1
  let title := safe_get_str (some it.title) ""
  let snip := safe_get_str (some p.2) ""
  let tzRes := if title ≠ "" then translate_to_zh e title acc.2 else ("", acc.2)
  let szRes := if snip ≠ "" then translate_to_zh e snip tzRes.2 else ("", tzRes.2)
  (acc.1 ++ [⟨it, p.2, tzRes.1, szRes.1⟩], szRes.2)

/-- The translation stage of `main` (the branch where Argos is available and the
`en->zh` pair is installed). -/
def translate_items (e : Engine) (xs : List (Entry × String)) (cache0 : Cache) :
    List EnrichedRec × Cache :=
  xs.foldl (translate_step e) ([], cache0)

/-- The pipeline of `main` from the point where all feeds have been fetched and
the seen set loaded: merging, incremental selection, snippet fetching (`fetchSnip`
abstracts `fetch_first_paragraph` over the network), translation, cleanup and the
artifact write. The first component is the written artifact content: `none` means
`main` hit `if not all_items: return` at lines 638-640 and wrote no file and did
not save the seen set. -/
def main_run (feeds : List (List Entry)) (seen_before : Finset String)
    (mode_new : Bool) (fetchSnip : String → String) (e : Engine) (cache0 : Cache) :
    Option (List OutItem) × Finset String :=
  let all_items := feeds.flatten
  if all_items.isEmpty then (none, seen_before)
  else
    let merged := merge_sort_dedupe all_items
    let sel := filter_new_items merged seen_before mode_new
    let withSnip := sel.1.map (fun it =>
      let link := safe_get_str (some it.link) ""
      (it, if link = "" then "" else fetchSnip link))
    let enriched :=
      if e.available then
        if argos_has_pair e "en" "zh" then (translate_items e withSnip cache0).1
        else withSnip.map (fun p => ⟨p.1, p.2, "", ""⟩)
      else withSnip.map (fun p => ⟨p.1, p.2, "", ""⟩)
    (some (cleanup_internal_fields enriched), sel.2)

/-! ## Helper lemmas and claim theorems -/

/-- A concrete entry used by witnesses. -/
def wEntryA : Entry :=
  { title := "T", link := "https://x/1", published := "", source := "", pubTs := 3 }

/-- A second concrete entry used by witnesses. -/
def wEntryB : Entry :=
  { title := "T2", link := "https://x/2", published := "", source := "", pubTs := 1 }

lemma filter_new_loop_all_seen (before : Finset String) :
    ∀ items : List Entry, (∀ it ∈ items, filterKey it ∈ before) →
      filter_new_loop before items before = ([], before) := by
  intro items h
  induction items with
  | nil => rfl
  | cons a l ih =>
    have ha : filterKey a ∈ before := h a (by simp)
    have hl : ∀ it ∈ l, filterKey it ∈ before := fun it hit => h it (by simp [hit])
    by_cases hk : filterKey a = ""
    · simp [filter_new_loop, hk, ih hl]
    · have hins : insert (filterKey a) before = before := Finset.insert_eq_self.mpr ha
      simp [filter_new_loop, hk, hins, ih hl, ha]

/-- C1: idempotence of incremental selection — in `NEW_ONLY` mode, when every
entry's canonical key is already a member of `seen_before`, `filter_new_items`
returns an empty selection and a seen set equal to `seen_before`. -/
theorem selection_idempotent (items : List Entry) (before : Finset String)
    (h : ∀ it ∈ items, filterKey it ∈ before) :
    filter_new_items items before true = ([], before) := by
  unfold filter_new_items
  simp [filter_new_loop_all_seen before items h]

theorem selection_idempotent_witness :
    (∀ it ∈ [wEntryA], filterKey it ∈ ({"https://x/1"} : Finset String))
    ∧ filter_new_items [wEntryA] {"https://x/1"} true = ([], {"https://x/1"}) :=
  ⟨by decide, selection_idempotent _ _ (by decide)⟩

lemma filter_new_loop_sub (before : Finset String) :
    ∀ (items : List Entry) (u : Finset String),
      u ⊆ (filter_new_loop before items u).2 := by
  intro items
  induction items with
  | nil => intro u; simp [filter_new_loop]
  | cons a l ih =>
    intro u
    by_cases hk : filterKey a = ""
    · simpa [filter_new_loop, hk] using ih u
    · by_cases hs : filterKey a ∉ before
      · simp only [filter_new_loop, if_neg hk, hs, if_pos]
        exact (Finset.subset_insert _ _).trans (ih (insert (filterKey a) u))
      · simp only [filter_new_loop, if_neg hk, hs, if_neg]
        exact (Finset.subset_insert _ _).trans (ih (insert (filterKey a) u))

lemma filter_new_loop_mem (before : Finset String) :
    ∀ (items : List Entry) (u : Finset String) (it : Entry),
      it ∈ items → filterKey it ≠ "" →
      filterKey it ∈ (filter_new_loop before items u).2 := by
  intro items
  induction items with
  | nil => intro u it h; simp at h
  | cons a l ih =>
    intro u it hit hk
    rcases List.mem_cons.mp hit with rfl | hmem
    · have hmemi : filterKey it ∈ insert (filterKey it) u := Finset.mem_insert_self _ _
      by_cases hs : filterKey it ∉ before
      · simp only [filter_new_loop, if_neg hk, hs, if_pos]
        exact filter_new_loop_sub before l _ hmemi
      · simp only [filter_new_loop, if_neg hk, hs, if_neg]
        exact filter_new_loop_sub before l _ hmemi
    · by_cases hka : filterKey a = ""
      · simp only [filter_new_loop, hka, if_pos rfl]
        exact ih u it hmem hk
      · by_cases hs : filterKey a ∉ before
        · simp only [filter_new_loop, if_neg hka, hs, if_pos]
          exact ih _ it hmem hk
        · simp only [filter_new_loop, if_neg hka, hs, if_neg]
          exact ih _ it hmem hk

lemma foldl_addkeys_sub :
    ∀ (items : List Entry) (s : Finset String),
      s ⊆ items.foldl
        (fun s it => let k := filterKey it; if k = "" then s else insert k s) s := by
  intro items
  induction items with
  | nil => intro s; simp
  | cons a l ih =>
    intro s
    simp only [List.foldl_cons]
    refine Finset.Subset.trans ?_ (ih _)
    by_cases hk : filterKey a = ""
    · simp [hk]
    · simp only [hk, if_neg hk]
      exact Finset.subset_insert _ _

lemma foldl_addkeys_mem :
    ∀ (items : List Entry) (s : Finset String) (it : Entry),
      it ∈ items → filterKey it ≠ "" →
      filterKey it ∈ items.foldl
        (fun s it => let k := filterKey it; if k = "" then s else insert k s) s := by
  intro items
  induction items with
  | nil => intro s it h; simp at h
  | cons a l ih =>
    intro s it hit hk
    rcases List.mem_cons.mp hit with rfl | hmem
    · simp only [List.foldl_cons, if_neg hk]
      exact foldl_addkeys_sub l _ (Finset.mem_insert_self _ _)
    · simp only [List.foldl_cons]
      exact ih _ it hmem hk

/-- C2: monotonicity of the seen set — in both modes `seenSetAfter` is a superset
of `seenSetBefore`, and every entry whose canonical key is non-empty (the
RawEntry invariant: link or title non-empty after stripping) has its key added
to `seenSetAfter` whether or not the entry was selected. -/
theorem seen_monotone (items : List Entry) (before : Finset String) (mode_new : Bool) :
    before ⊆ (filter_new_items items before mode_new).2
    ∧ ∀ it ∈ items, filterKey it ≠ "" →
        filterKey it ∈ (filter_new_items items before mode_new).2 := by
  cases mode_new with
  | false =>
    unfold filter_new_items
    simp only [if_pos rfl]
    exact ⟨foldl_addkeys_sub items before,
      fun it hit hk => foldl_addkeys_mem items before it hit hk⟩
  | true =>
    unfold filter_new_items
    simp only [Bool.true_eq_false, if_false]
    exact ⟨filter_new_loop_sub before items before,
      fun it hit hk => filter_new_loop_mem before items before it hit hk⟩

theorem seen_monotone_witness :
    (({"a"} : Finset String) ⊆ (filter_new_items [wEntryB] {"a"} true).2)
    ∧ filterKey wEntryB ∈ (filter_new_items [wEntryB] {"a"} true).2 :=
  ⟨(seen_monotone [wEntryB] {"a"} true).1,
    (seen_monotone [wEntryB] {"a"} true).2 wEntryB (by decide) (by decide)⟩

/-! Lemmas for `merge_sort_dedupe` (claim C3). -/

lemma orderedInsert_filter_ts (a : Entry) (t : Int) :
    ∀ l : List Entry,
      (List.orderedInsert tsGE a l).filter (fun e => e.pubTs == t)
        = if a.pubTs = t then a :: l.filter (fun e => e.pubTs == t)
          else l.filter (fun e => e.pubTs == t) := by
  intro l
  induction l with
  | nil => by_cases h : a.pubTs = t <;> simp [List.orderedInsert, h]
  | cons b l ih =>
    rw [List.orderedInsert]
    by_cases hr : tsGE a b
    · rw [if_pos hr]
      by_cases h : a.pubTs = t <;> simp [List.filter_cons, h]
    · rw [if_neg hr]
      have hlt : a.pubTs < b.pubTs := by
        have := not_le.mp hr
        exact this
      by_cases h : a.pubTs = t
      · have hb : (b.pubTs = t) = False := by
          simp; omega
        simp [List.filter_cons, hb, ih, h]
      · by_cases hbt : b.pubTs = t <;> simp [List.filter_cons, hbt, ih, h]

lemma sort_by_ts_desc_stable (t : Int) :
    ∀ l : List Entry,
      (sort_by_ts_desc l).filter (fun e => e.pubTs == t)
        = l.filter (fun e => e.pubTs == t) := by
  intro l
  induction l with
  | nil => rfl
  | cons a l ih =>
    rw [sort_by_ts_desc, List.insertionSort, orderedInsert_filter_ts]
    rw [sort_by_ts_desc] at ih
    by_cases h : a.pubTs = t <;> simp [List.filter_cons, h, ih]

lemma dedupe_go_sublist : ∀ (l : List Entry) (s : Finset String),
    (dedupe_go s l).Sublist l := by
  intro l
  induction l with
  | nil => intro s; simp [dedupe_go]
  | cons a l ih =>
    intro s
    rw [dedupe_go]
    by_cases h : dedupeKey a ∈ s
    · simp only [if_pos h]
      exact (ih s).cons a
    · simp only [if_neg h]
      exact (ih _).cons₂ a

lemma dedupe_go_filter (k : String) :
    ∀ (l : List Entry) (s : Finset String),
      (dedupe_go s l).filter (fun e => dedupeKey e == k)
        = if k ∈ s then [] else (l.filter (fun e => dedupeKey e == k)).take 1 := by
  intro l
  induction l with
  | nil => intro s; simp [dedupe_go]
  | cons a l ih =>
    intro s
    rw [dedupe_go]
    by_cases hmem : dedupeKey a ∈ s
    · simp only [if_pos hmem]
      rw [ih]
      by_cases hks : k ∈ s
      · simp [hks]
      · have hne : ¬ (dedupeKey a = k) := fun h => hks (h ▸ hmem)
        simp [hks, List.filter_cons, hne]
    · simp only [if_neg hmem]
      by_cases hk : dedupeKey a = k
      · subst hk
        rw [List.filter_cons]
        simp only [beq_self_eq_true, if_true]
        rw [ih]
        rw [if_pos (Finset.mem_insert_self _ _), if_neg hmem, List.filter_cons]
        simp
      · have hfa : (dedupeKey a == k) = false := by simp [hk]
        have hne2 : k ≠ dedupeKey a := fun h => hk h.symm
        rw [List.filter_cons, hfa]
        simp only [Bool.false_eq_true, if_false]
        rw [ih]
        by_cases hks : k ∈ s
        · rw [if_pos (Finset.mem_insert_of_mem hks), if_pos hks]
        · rw [if_neg (by simp [Finset.mem_insert, hne2, hks]), if_neg hks,
            List.filter_cons, hfa]
          simp only [Bool.false_eq_true, if_false]

lemma dedupe_go_nodup : ∀ (l : List Entry) (s : Finset String),
    ((dedupe_go s l).map dedupeKey).Nodup
    ∧ ∀ e ∈ dedupe_go s l, dedupeKey e ∉ s := by
  intro l
  induction l with
  | nil => intro s; simp [dedupe_go]
  | cons a l ih =>
    intro s
    rw [dedupe_go]
    by_cases hmem : dedupeKey a ∈ s
    · simp only [if_pos hmem]
      exact ih s
    · simp only [if_neg hmem]
      obtain ⟨ihn, ihs⟩ := ih (insert (dedupeKey a) s)
      refine ⟨?_, ?_⟩
      · simp only [List.map_cons, List.nodup_cons]
        refine ⟨?_, ihn⟩
        intro hcon
        obtain ⟨e, he, heq⟩ := List.mem_map.mp hcon
        exact (ihs e he) (heq ▸ Finset.mem_insert_self _ _)
      · intro e he
        rcases List.mem_cons.mp he with rfl | hmem2
        · exact hmem
        · exact fun hs => (ihs e hmem2) (Finset.mem_insert_of_mem hs)

lemma key_of_link (e : Entry) (h : pyStrip e.link ≠ "") :
    filterKey e = pyStrip e.link ∧ dedupeKey e = pyStrip e.link := by
  have hl : e.link ≠ "" := by
    intro h0
    exact h (by rw [h0]; rfl)
  have hf : filterKey e = pyStrip e.link := by
    unfold filterKey entry_key build_item_key safe_get_str
    simp [hl, h]
  exact ⟨hf, by unfold dedupeKey; simp [hf, h]⟩

/-- C3: merge-dedupe correctness — the sort step is a permutation of the input,
sorted by published timestamp descending and stable (entries of equal timestamp
keep their discovery order); the returned list is a sublist of that stable sort,
so its entries — ties included — appear in the sort's order; it keeps exactly
one entry per canonical key, namely the first occurrence after sorting; and for
two entries with the same (non-blank) link and different timestamps, exactly
the later-timestamped one survives. -/
theorem merge_dedupe_correct :
    (∀ items : List Entry,
        (sort_by_ts_desc items).Perm items
        ∧ (merge_sort_dedupe items).Sublist (sort_by_ts_desc items)
        ∧ (merge_sort_dedupe items).Pairwise tsGE
        ∧ (∀ t : Int, (sort_by_ts_desc items).filter (fun e => e.pubTs == t)
            = items.filter (fun e => e.pubTs == t))
        ∧ ((merge_sort_dedupe items).map dedupeKey).Nodup
        ∧ (∀ k : String, (merge_sort_dedupe items).filter (fun e => dedupeKey e == k)
            = ((sort_by_ts_desc items).filter (fun e => dedupeKey e == k)).take 1))
    ∧ (∀ x y : Entry, x.link = y.link → pyStrip x.link ≠ "" → x.pubTs ≠ y.pubTs →
        merge_sort_dedupe [x, y] = [if y.pubTs < x.pubTs then x else y]) := by
  constructor
  · intro items
    refine ⟨List.perm_insertionSort tsGE items,
      dedupe_go_sublist (sort_by_ts_desc items) ∅, ?_,
      fun t => sort_by_ts_desc_stable t items,
      (dedupe_go_nodup (sort_by_ts_desc items) ∅).1, ?_⟩
    · exact List.Pairwise.sublist (dedupe_go_sublist (sort_by_ts_desc items) ∅)
        (List.sorted_insertionSort tsGE items)
    · intro k
      rw [merge_sort_dedupe, dedupe_go_filter]
      simp
  · intro x y hlink hne hts
    have hky : pyStrip y.link ≠ "" := by rw [← hlink]; exact hne
    have hkx := (key_of_link x hne).2
    have hkyk := (key_of_link y hky).2
    have hkeq : dedupeKey y = dedupeKey x := by rw [hkx, hkyk, hlink]
    rw [merge_sort_dedupe, sort_by_ts_desc]
    simp only [List.insertionSort, List.orderedInsert]
    by_cases hr : tsGE x y
    · have hlt : y.pubTs < x.pubTs := lt_of_le_of_ne hr (fun h => hts h.symm)
      rw [if_pos hr, if_pos hlt]
      rw [dedupe_go]
      simp only [Finset.not_mem_empty, if_neg, if_false]
      rw [dedupe_go]
      simp only [hkeq, Finset.mem_insert_self, if_pos, if_true]
      rfl
    · have hlt : x.pubTs < y.pubTs := by
        have := not_le.mp hr
        exact this
      have hnlt : ¬ (y.pubTs < x.pubTs) := by omega
      rw [if_neg hr, if_neg hnlt]
      rw [dedupe_go]
      simp only [Finset.not_mem_empty, if_neg, if_false]
      rw [dedupe_go]
      simp only [← hkeq, Finset.mem_insert_self, if_pos, if_true]
      rfl

/-- Two witness entries sharing a link, with different timestamps. -/
def wEntryC : Entry :=
  { title := "older title", link := "https://x/dup", published := "", source := "", pubTs := 5 }

/-- The newer of the two duplicate witness entries. -/
def wEntryD : Entry :=
  { title := "newer title", link := "https://x/dup", published := "", source := "", pubTs := 9 }

theorem merge_dedupe_correct_witness :
    (merge_sort_dedupe [wEntryA]).Sublist (sort_by_ts_desc [wEntryA])
    ∧ ((merge_sort_dedupe [wEntryA]).map dedupeKey).Nodup
    ∧ merge_sort_dedupe [wEntryC, wEntryD] = [wEntryD] :=
  ⟨(merge_dedupe_correct.1 [wEntryA]).2.1,
    (merge_dedupe_correct.1 [wEntryA]).2.2.2.2.1,
    (merge_dedupe_correct.2 wEntryC wEntryD rfl (by decide) (by decide)).trans (by decide)⟩

/-! Lemmas for the translation bridge (claims C4, C5). -/

lemma lookup_map_update (k : String) (v : String) :
    ∀ (c : Cache), (List.lookup k c).isSome →
      List.lookup k (c.map (fun p => if p.1 = k then (k, v) else p)) = some v := by
  intro c
  induction c with
  | nil => intro h; simp [List.lookup] at h
  | cons a c ih =>
    obtain ⟨a1, a2⟩ := a
    intro h
    by_cases hk : a1 = k
    · rw [List.map_cons, if_pos (by simpa using hk)]
      exact List.lookup_cons_self
    · have hbk : (k == a1) = false := beq_eq_false_iff_ne.mpr (fun hh => hk hh.symm)
      rw [List.map_cons, if_neg (by simpa using hk)]
      simp only [List.lookup, hbk] at h ⊢
      exact ih h

lemma lookup_map_keep (k k' : String) (v : String) (hne : k' ≠ k) :
    ∀ (c : Cache),
      List.lookup k' (c.map (fun p => if p.1 = k then (k, v) else p))
        = List.lookup k' c := by
  intro c
  induction c with
  | nil => simp
  | cons a c ih =>
    obtain ⟨a1, a2⟩ := a
    by_cases hk : a1 = k
    · have hb : (k' == a1) = false := beq_eq_false_iff_ne.mpr (hk ▸ hne)
      have hb2 : (k' == k) = false := beq_eq_false_iff_ne.mpr hne
      rw [List.map_cons, if_pos (by simpa using hk)]
      simp [List.lookup, hb, hb2, ih]
    · rw [List.map_cons, if_neg (by simpa using hk)]
      by_cases hk2 : k' = a1
      · subst hk2
        simp [List.lookup]
      · have hb : (k' == a1) = false := beq_eq_false_iff_ne.mpr hk2
        simp [List.lookup, hb, ih]

lemma dictFind_dictInsert_self (c : Cache) (k v : String) :
    dictFind (dictInsert c k v) k = some v := by
  unfold dictInsert dictFind
  cases h : List.lookup k c with
  | none =>
    rw [List.lookup_append, h]
    simp [List.lookup]
  | some w =>
    exact lookup_map_update k v c (by simp [h])

lemma dictFind_dictInsert_ne (c : Cache) (k v k' : String) (hne : k' ≠ k) :
    dictFind (dictInsert c k v) k' = dictFind c k' := by
  unfold dictInsert dictFind
  cases h : List.lookup k c with
  | none =>
    rw [List.lookup_append]
    have hb : (k' == k) = false := beq_eq_false_iff_ne.mpr hne
    have h2 : List.lookup k' [(k, v)] = none := by simp [List.lookup, hb]
    rw [h2]
    cases List.lookup k' c <;> rfl
  | some w => exact lookup_map_keep k k' v hne c

lemma dropWhile_dropWhile {α : Type} (p : α → Bool) (l : List α) :
    List.dropWhile p (List.dropWhile p l) = List.dropWhile p l := by
  induction l with
  | nil => simp
  | cons a l ih =>
    by_cases h : p a
    · simp [List.dropWhile_cons, h, ih]
    · simp [List.dropWhile_cons, h]

lemma dropWhile_head_false {α : Type} (p : α → Bool) (l : List α) (x : α)
    (h : (List.dropWhile p l).head? = some x) : p x = false := by
  induction l with
  | nil => simp at h
  | cons a l ih =>
    by_cases hp : p a
    · rw [List.dropWhile_cons, if_pos hp] at h; exact ih h
    · rw [List.dropWhile_cons, if_neg hp] at h
      simp at h
      rw [← h]
      simp [hp]

lemma trimChars_idem (cs : List Char) : trimChars (trimChars cs) = trimChars cs := by
  have key : ∀ l : List Char,
      List.dropWhile Char.isWhitespace
          ((List.dropWhile Char.isWhitespace
            (List.dropWhile Char.isWhitespace l).reverse).reverse)
        = (List.dropWhile Char.isWhitespace
            (List.dropWhile Char.isWhitespace l).reverse).reverse := by
    intro l
    cases hc : (List.dropWhile Char.isWhitespace
        (List.dropWhile Char.isWhitespace l).reverse).reverse with
    | nil => simp
    | cons x xs =>
      obtain ⟨t, ht⟩ : List.dropWhile Char.isWhitespace
          (List.dropWhile Char.isWhitespace l).reverse
            <:+ (List.dropWhile Char.isWhitespace l).reverse :=
        List.dropWhile_suffix _
      have hY2 : List.dropWhile Char.isWhitespace l
          = (List.dropWhile Char.isWhitespace
              (List.dropWhile Char.isWhitespace l).reverse).reverse ++ t.reverse := by
        have h3 := congrArg List.reverse ht
        simpa using h3.symm
      have hhead : (List.dropWhile Char.isWhitespace l).head? = some x := by
        rw [hY2, hc]; rfl
      have hpx : Char.isWhitespace x = false := dropWhile_head_false _ l x hhead
      simp [List.dropWhile_cons, hpx]
  unfold trimChars
  rw [key cs, List.reverse_reverse, dropWhile_dropWhile]

lemma pyStrip_idem (s : String) : pyStrip (pyStrip s) = pyStrip s := by
  unfold pyStrip
  exact congrArg String.mk (trimChars_idem s.toList)

lemma append_ne_append (s1 s2 a b : String) (hlen : s1.length = s2.length)
    (hne : s1 ≠ s2) : s1 ++ a ≠ s2 ++ b := by
  intro h
  have hdata := congrArg String.data h
  rw [String.data_append, String.data_append] at hdata
  obtain ⟨h1, _⟩ := List.append_inj hdata hlen
  exact hne (String.ext h1)

lemma detect_ja (text : String) (h : text.toList.any isKana = true)
    (hne : text ≠ "") : detect_lang_simple text = "ja" := by
  unfold detect_lang_simple
  rw [if_neg hne, if_pos h]

lemma argos_translate_eq (e : Engine) (text f t : String)
    (hav : e.available = true) (hs : pyStrip text ≠ "")
    (hpair : argos_has_pair e f t = true) :
    argos_translate e text f t = e.tr text f t := by
  unfold argos_translate
  rw [if_neg (by simp [hav]), if_neg hs, if_pos hpair]

lemma not_blank_cond (text : String) (h : pyStrip text ≠ "") :
    ¬ (text = "" ∨ pyStrip text = "") := by
  rintro (h0 | h0)
  · exact h (by rw [h0]; rfl)
  · exact h h0

lemma translate_to_zh_hit (e : Engine) (text : String) (cache : Cache) (v : String)
    (h : pyStrip text ≠ "")
    (hv : dictFind cache (zhKey (detect_lang_simple text) text) = some v) :
    translate_to_zh e text cache = (v, cache) := by
  unfold translate_to_zh
  rw [if_neg (not_blank_cond text h)]
  simp only [hv]

lemma translate_to_zh_caches (e : Engine) (text : String) (cache : Cache)
    (h : pyStrip text ≠ "") :
    dictFind (translate_to_zh e text cache).2 (zhKey (detect_lang_simple text) text)
      = some (translate_to_zh e text cache).1 := by
  unfold translate_to_zh
  rw [if_neg (not_blank_cond text h)]
  cases hfind : dictFind cache (zhKey (detect_lang_simple text) text) with
  | some v => simp [hfind]
  | none =>
    simp only [hfind]
    by_cases hen : detect_lang_simple text = "en"
    · simp [hen, dictFind_dictInsert_self]
    · by_cases hja : detect_lang_simple text = "ja"
      · by_cases hp : argos_has_pair e "ja" "zh"
        · simp [hen, hja, hp, dictFind_dictInsert_self]
        · cases hmid : dictFind cache ("ja::en::" ++ text) with
          | some m =>
            by_cases hm : m = ""
            · simp [hen, hja, hp, hmid, hm, dictFind_dictInsert_self]
            · cases hout : dictFind cache ("en::zh::" ++ m) with
              | some w => simp [hen, hja, hp, hmid, hm, hout, dictFind_dictInsert_self]
              | none => simp [hen, hja, hp, hmid, hm, hout, dictFind_dictInsert_self]
          | none =>
            by_cases hm : pyStrip (argos_translate e text "ja" "en") = ""
            · simp [hen, hja, hp, hmid, hm, dictFind_dictInsert_self]
            · cases hout : dictFind
                (dictInsert cache ("ja::en::" ++ text)
                  (pyStrip (argos_translate e text "ja" "en")))
                ("en::zh::" ++ pyStrip (argos_translate e text "ja" "en")) with
              | some w => simp [hen, hja, hp, hmid, hm, hout, dictFind_dictInsert_self]
              | none => simp [hen, hja, hp, hmid, hm, hout, dictFind_dictInsert_self]
      · simp [hen, hja, dictFind_dictInsert_self]

/-- An engine with no models installed (used by witnesses): the import of
`argostranslate` failed. -/
def engineOff : Engine := { available := false, pairs := [], tr := fun _ _ _ => "" }

/-- A stub engine supporting only `ja->en` and `en->zh` (used by witnesses). -/
def engineChain : Engine :=
  { available := true
    pairs := [("ja", "en"), ("en", "zh")]
    tr := fun t f _ => if f = "ja" then "hello" else "NIHAO " ++ t }

/-- A stub engine whose `ja->en` hop yields a blank string (used by witnesses). -/
def engineBlankHop : Engine :=
  { available := true
    pairs := [("ja", "en"), ("en", "zh")]
    tr := fun _ f _ => if f = "ja" then " " else "x" }

/-- C5 (amended): cache-hit equivalence and short-circuit — for every non-blank
text whose `(sourceLang, "zh", text)` key is in the cache, `translate_to_zh`
returns exactly the stored value (empty string included) with the cache
unchanged and independently of the engine; consequently a second translation of
the same text returns the first call's value and changes nothing. -/
theorem cache_hit_equiv :
    (∀ (text : String) (cache : Cache) (v : String),
      pyStrip text ≠ "" →
      dictFind cache (zhKey (detect_lang_simple text) text) = some v →
      ∀ e : Engine, translate_to_zh e text cache = (v, cache))
    ∧ (∀ (e eSecond : Engine) (text : String) (cache : Cache),
      pyStrip text ≠ "" →
      translate_to_zh eSecond text (translate_to_zh e text cache).2
        = ((translate_to_zh e text cache).1, (translate_to_zh e text cache).2)) := by
  constructor
  · intro text cache v h hv e
    exact translate_to_zh_hit e text cache v h hv
  · intro e e2 text cache h
    exact translate_to_zh_hit e2 text _ _ h (translate_to_zh_caches e text cache h)

/-- The cache whose only entry is keyed by the blank text: the input of the
counterexample to C5 as stated. -/
def cacheBlankKey : Cache := [("ja::zh:: ", "x")]

theorem cache_hit_counterexample :
    dictFind cacheBlankKey (zhKey (detect_lang_simple " ") " ") = some "x"
    ∧ translate_to_zh engineOff " " cacheBlankKey = ("", cacheBlankKey)
    ∧ ("x" : String) ≠ "" := by decide

/-- The cache of the C5 witness: the key of `"あ"` maps to a stored value. -/
def cacheKana : Cache := [("ja::zh::あ", "好")]

theorem cache_hit_equiv_witness :
    translate_to_zh engineOff "あ" cacheKana = ("好", cacheKana)
    ∧ translate_to_zh engineOff "あ" (translate_to_zh engineChain "あ" cacheKana).2
        = ((translate_to_zh engineChain "あ" cacheKana).1,
           (translate_to_zh engineChain "あ" cacheKana).2) :=
  ⟨cache_hit_equiv.1 "あ" cacheKana "好" (by decide) (by decide) engineOff,
    cache_hit_equiv.2 engineChain engineOff "あ" cacheKana (by decide)⟩

/-- C4: chained translation — with an engine that supports `ja->en` and `en->zh`
but not `ja->zh`, and a cache holding none of the keys involved, translating a
non-blank Japanese (kana-containing) text returns the two-hop result and
populates the `ja::en` and `en::zh` intermediate cache entries under their own
keys; when the first hop is blank the overall result is the empty string,
cached as empty under the `ja::zh` key. -/
theorem chained_translation :
    ∀ (e : Engine) (text : String) (cache : Cache),
      e.available = true →
      argos_has_pair e "ja" "en" = true →
      argos_has_pair e "en" "zh" = true →
      argos_has_pair e "ja" "zh" = false →
      text.toList.any isKana = true →
      pyStrip text ≠ "" →
      dictFind cache (zhKey "ja" text) = none →
      dictFind cache ("ja::en::" ++ text) = none →
      (pyStrip (e.tr text "ja" "en") = "" →
        (translate_to_zh e text cache).1 = ""
        ∧ dictFind (translate_to_zh e text cache).2 (zhKey "ja" text) = some "")
      ∧ (∀ mid out : String,
          mid = pyStrip (e.tr text "ja" "en") →
          out = pyStrip (e.tr mid "en" "zh") →
          mid ≠ "" →
          dictFind cache ("en::zh::" ++ mid) = none →
          (translate_to_zh e text cache).1 = out
          ∧ dictFind (translate_to_zh e text cache).2 ("ja::en::" ++ text) = some mid
          ∧ dictFind (translate_to_zh e text cache).2 ("en::zh::" ++ mid) = some out
          ∧ dictFind (translate_to_zh e text cache).2 (zhKey "ja" text) = some out) := by
  intro e text cache hav hjaen henzh hjazh hkana hstrip hkey hmidkey
  have hne : text ≠ "" := fun h0 => hstrip (by rw [h0]; rfl)
  have hdet : detect_lang_simple text = "ja" := detect_ja text hkana hne
  have hmidtr : argos_translate e text "ja" "en" = e.tr text "ja" "en" :=
    argos_translate_eq e text "ja" "en" hav hstrip hjaen
  constructor
  · intro hblank
    have hcomp : translate_to_zh e text cache
        = ("", dictInsert (dictInsert cache ("ja::en::" ++ text) "")
            (zhKey "ja" text) "") := by
      unfold translate_to_zh
      rw [if_neg (not_blank_cond text hstrip)]
      simp only [hdet, hkey, hjazh, hmidkey, hmidtr, hblank]
      simp
    rw [hcomp]
    exact ⟨rfl, dictFind_dictInsert_self _ _ _⟩
  · intro mid out hmiddef houtdef hm hout
    have hstrip2 : pyStrip mid ≠ "" := by
      rw [hmiddef, pyStrip_idem]
      rw [hmiddef] at hm
      exact hm
    have houttr : argos_translate e mid "en" "zh" = e.tr mid "en" "zh" :=
      argos_translate_eq e mid "en" "zh" hav hstrip2 henzh
    have hneMidKey : ("en::zh::" ++ mid) ≠ ("ja::en::" ++ text) :=
      append_ne_append "en::zh::" "ja::en::" mid text (by decide) (by decide)
    have hout2 : dictFind (dictInsert cache ("ja::en::" ++ text) mid)
        ("en::zh::" ++ mid) = none := by
      rw [dictFind_dictInsert_ne _ _ _ _ hneMidKey]
      exact hout
    have hcomp : translate_to_zh e text cache
        = (out, dictInsert
            (dictInsert (dictInsert cache ("ja::en::" ++ text) mid)
              ("en::zh::" ++ mid) out)
            (zhKey "ja" text) out) := by
      unfold translate_to_zh
      rw [if_neg (not_blank_cond text hstrip)]
      simp only [hdet, hkey, hjazh, hmidkey, hmidtr, ← hmiddef, if_neg hm,
        hout2, houttr, ← houtdef]
      simp [hm]
    rw [hcomp]
    refine ⟨rfl, ?_, ?_, dictFind_dictInsert_self _ _ _⟩
    · have h1 : ("ja::en::" ++ text) ≠ zhKey "ja" text :=
        append_ne_append "ja::en::" "ja::zh::" text text (by decide) (by decide)
      have h2 : ("ja::en::" ++ text) ≠ ("en::zh::" ++ mid) :=
        append_ne_append "ja::en::" "en::zh::" text mid (by decide) (by decide)
      rw [dictFind_dictInsert_ne _ _ _ _ h1, dictFind_dictInsert_ne _ _ _ _ h2]
      exact dictFind_dictInsert_self _ _ _
    · have h3 : ("en::zh::" ++ mid) ≠ zhKey "ja" text :=
        append_ne_append "en::zh::" "ja::zh::" mid text (by decide) (by decide)
      rw [dictFind_dictInsert_ne _ _ _ _ h3]
      exact dictFind_dictInsert_self _ _ _

theorem chained_translation_witness :
    ((translate_to_zh engineChain "こんにちは" []).1 = "NIHAO hello"
      ∧ dictFind (translate_to_zh engineChain "こんにちは" []).2
          ("ja::en::" ++ "こんにちは") = some "hello"
      ∧ dictFind (translate_to_zh engineChain "こんにちは" []).2
          ("en::zh::" ++ "hello") = some "NIHAO hello"
      ∧ dictFind (translate_to_zh engineChain "こんにちは" []).2
          (zhKey "ja" "こんにちは") = some "NIHAO hello")
    ∧ ((translate_to_zh engineBlankHop "こんにちは" []).1 = ""
      ∧ dictFind (translate_to_zh engineBlankHop "こんにちは" []).2
          (zhKey "ja" "こんにちは") = some "") :=
  ⟨(chained_translation engineChain "こんにちは" [] (by decide) (by decide) (by decide)
      (by decide) (by decide) (by decide) (by decide) (by decide)).2
      "hello" "NIHAO hello" (by decide) (by decide) (by decide) (by decide),
    (chained_translation engineBlankHop "こんにちは" [] (by decide) (by decide) (by decide)
      (by decide) (by decide) (by decide) (by decide) (by decide)).1 (by decide)⟩

/-! Lemmas for lead-paragraph extraction (claims C6, C10). -/

lemma firstGoodP_eq : ∀ ps : List Node,
    firstGoodP ps = ((ps.map pText).find? goodPara).getD "" := by
  intro ps
  induction ps with
  | nil => rfl
  | cons p ps ih =>
    rw [firstGoodP]
    simp only [List.map_cons, List.find?_cons]
    by_cases h : goodPara (pText p)
    · simp [h]
    · simp [h, ih]

lemma firstLongP_eq : ∀ ps : List Node,
    firstLongP ps = ((ps.map pText).find? longPara).getD "" := by
  intro ps
  induction ps with
  | nil => rfl
  | cons p ps ih =>
    rw [firstLongP]
    simp only [List.map_cons, List.find?_cons]
    by_cases h : longPara (pText p)
    · simp [h]
    · simp [h, ih]

lemma goodPara_ne_empty (t : String) (h : goodPara t = true) : t ≠ "" := by
  intro he
  subst he
  simp [goodPara] at h

lemma extract_generic (url : String) (doc : Node)
    (h1 : strContains (urlHost url) "nhk.or.jp" = false)
    (h2 : strContains (urlHost url) "bbc." = false)
    (h3 : selOneNode "article" (scrubNode doc) = none)
    (h4 : selOneNode "main" (scrubNode doc) = none) :
    extract_first_paragraph url doc
      = match ((nodeDescPs (scrubNode doc)).map pText).find? goodPara with
        | some t => t
        | none => (((nodeDescPs (scrubNode doc)).map pText).find? longPara).getD "" := by
  unfold extract_first_paragraph
  simp only [h1, h2, h3, h4, Bool.false_eq_true, if_false, ite_self]
  simp only [Option.orElse, Option.getD]
  rw [pick_first_p, firstGoodP_eq]
  cases hfind : ((nodeDescPs (scrubNode doc)).map pText).find? goodPara with
  | some t0 =>
    have ht0 : t0 ≠ "" := goodPara_ne_empty t0 (List.find?_some hfind)
    simp [hfind, ht0]
  | none =>
    simp only [hfind, ne_eq]
    simp [firstLongP_eq]
    cases Option.map pText (List.find? (longPara ∘ pText) (nodeDescPs (scrubNode doc))) <;> rfl

/-- C6 (amended): generic extraction fallback — for a document with no site
profile and no `article`/`main` container, extraction returns the first
paragraph whose normalized text is at least 25 characters and free of "cookie";
failing that, the whole-document scan returns the first paragraph of at least 25
characters; there is no any-length last resort, so a document with no such
paragraph (zero paragraphs included) yields the empty string. -/
theorem generic_extraction_fallback :
    ∀ (url : String) (doc : Node),
      strContains (urlHost url) "nhk.or.jp" = false →
      strContains (urlHost url) "bbc." = false →
      selOneNode "article" (scrubNode doc) = none →
      selOneNode "main" (scrubNode doc) = none →
      (∀ t0 : String, ((nodeDescPs (scrubNode doc)).map pText).find? goodPara = some t0 →
        extract_first_paragraph url doc = t0)
      ∧ (((nodeDescPs (scrubNode doc)).map pText).find? goodPara = none →
          extract_first_paragraph url doc
            = ((((nodeDescPs (scrubNode doc)).map pText).find? longPara).getD ""))
      ∧ (nodeDescPs (scrubNode doc) = [] → extract_first_paragraph url doc = "") := by
  intro url doc h1 h2 h3 h4
  have he := extract_generic url doc h1 h2 h3 h4
  refine ⟨?_, ?_, ?_⟩
  · intro t0 hfind
    rw [he, hfind]
  · intro hfind
    rw [he, hfind]
  · intro hps
    rw [he, hps]
    simp

/-- A document whose only paragraph is 10 characters long. -/
def shortParaDoc : Node :=
  .elem "html" "" [] [.elem "body" "" [] [.elem "p" "" [] [.text "short text"]]]

theorem generic_extraction_counterexample :
    extract_first_paragraph "https://example.com/a" shortParaDoc = ""
    ∧ (nodeDescPs (scrubNode shortParaDoc)).map pText = ["short text"]
    ∧ ("short text" : String) ≠ "" := by decide

/-- A document whose only paragraph is longer than the 25-character threshold. -/
def longParaDoc : Node :=
  .elem "html" "" []
    [.elem "body" "" []
      [.elem "p" "" [] [.text "This paragraph is long enough to satisfy it."]]]

theorem generic_extraction_fallback_witness :
    extract_first_paragraph "https://example.com/a" longParaDoc
      = "This paragraph is long enough to satisfy it." :=
  (generic_extraction_fallback "https://example.com/a" longParaDoc rfl rfl rfl rfl).1
    "This paragraph is long enough to satisfy it." (by decide)

lemma firstGoodP_no_cookie : ∀ ps : List Node,
    mentionsCookie (firstGoodP ps) = false := by
  intro ps
  induction ps with
  | nil => decide
  | cons p ps ih =>
    rw [firstGoodP]
    by_cases h : goodPara (pText p)
    · rw [if_pos h]
      have h2 := h
      simp only [goodPara, Bool.and_eq_true, Bool.not_eq_true'] at h2
      exact h2.2
    · rw [if_neg h]
      exact ih

/-- C10: the cookie filter in extraction — `pick_first_p` (used for every
site-specific and generic container) never returns a paragraph whose normalized
text contains "cookie" in any letter case, regardless of its length; a page
whose only sufficiently long paragraph mentions cookies therefore falls through
to the whole-document scan, which applies no cookie filter and returns it. -/
theorem cookie_filter :
    (∀ container : Option Node, mentionsCookie (pick_first_p container) = false)
    ∧ (∀ (url : String) (doc : Node),
        strContains (urlHost url) "nhk.or.jp" = false →
        strContains (urlHost url) "bbc." = false →
        selOneNode "article" (scrubNode doc) = none →
        selOneNode "main" (scrubNode doc) = none →
        ((nodeDescPs (scrubNode doc)).map pText).find? goodPara = none →
        ∀ t0 : String, ((nodeDescPs (scrubNode doc)).map pText).find? longPara = some t0 →
          extract_first_paragraph url doc = t0) := by
  constructor
  · intro container
    cases container with
    | none => decide
    | some c => exact firstGoodP_no_cookie (nodeDescPs c)
  · intro url doc h1 h2 h3 h4 hgood t0 hlong
    rw [extract_generic url doc h1 h2 h3 h4, hgood, hlong]
    rfl

/-- A document whose only sufficiently long paragraph mentions cookies. -/
def cookieDoc : Node :=
  .elem "html" "" []
    [.elem "body" "" []
      [.elem "p" "" [] [.text "We use cookie banners everywhere on this site."]]]

theorem cookie_filter_witness :
    mentionsCookie (pick_first_p (some cookieDoc)) = false
    ∧ extract_first_paragraph "https://example.com/b" cookieDoc
        = "We use cookie banners everywhere on this site." :=
  ⟨cookie_filter.1 (some cookieDoc),
    cookie_filter.2 "https://example.com/b" cookieDoc rfl rfl rfl rfl (by decide)
      "We use cookie banners everywhere on this site." (by decide)⟩

/-! Lemmas for the main run (claim C7). -/

lemma translate_step_snips (e : Engine) (acc : List EnrichedRec × Cache)
    (p : Entry × String) (hp : p.2 = "")
    (hacc : ∀ r ∈ acc.1, r.snippet = "" ∧ r.snippet_zh = "") :
    ∀ r ∈ (translate_step e acc p).1, r.snippet = "" ∧ r.snippet_zh = "" := by
  intro r hr
  unfold translate_step at hr
  rw [List.mem_append] at hr
  rcases hr with hr | hr
  · exact hacc r hr
  · have hr2 : r = ⟨p.1, p.2,
        (if safe_get_str (some p.1.title) "" ≠ "" then
          translate_to_zh e (safe_get_str (some p.1.title) "") acc.2
         else ("", acc.2)).1, _⟩ := List.mem_singleton.mp hr
    rw [hr2]
    constructor
    · exact hp
    · simp only [hp]
      have hsnip : safe_get_str (some "") "" = "" := rfl
      simp [hsnip]

lemma foldl_translate_snips (e : Engine) :
    ∀ (xs : List (Entry × String)) (acc : List EnrichedRec × Cache),
      (∀ p ∈ xs, p.2 = "") →
      (∀ r ∈ acc.1, r.snippet = "" ∧ r.snippet_zh = "") →
      ∀ r ∈ (xs.foldl (translate_step e) acc).1,
        r.snippet = "" ∧ r.snippet_zh = "" := by
  intro xs
  induction xs with
  | nil => intro acc _ hacc; simpa using hacc
  | cons p xs ih =>
    intro acc hxs hacc
    rw [List.foldl_cons]
    exact ih (translate_step e acc p)
      (fun q hq => hxs q (List.mem_cons_of_mem p hq))
      (translate_step_snips e acc p (hxs p (List.mem_cons_self p xs)) hacc)

/-- C7 (amended): graceful degradation — whenever at least one entry was fetched
the run writes the artifact (the selection may be empty), and with a snippet
fetcher that always fails every written item has empty `snippet` and
`snippet_zh`; a run that fetched zero entries returns early and writes no
artifact (see the counterexample). -/
theorem graceful_degradation :
    (∀ (feeds : List (List Entry)) (seen : Finset String) (mode : Bool)
        (fsnip : String → String) (e : Engine) (c0 : Cache),
      feeds.flatten ≠ [] → (main_run feeds seen mode fsnip e c0).1.isSome = true)
    ∧ (∀ (feeds : List (List Entry)) (seen : Finset String) (mode : Bool)
        (e : Engine) (c0 : Cache) (out : List OutItem),
      (main_run feeds seen mode (fun _ => "") e c0).1 = some out →
      ∀ o ∈ out, o.snippet = "" ∧ o.snippet_zh = "") := by
  constructor
  · intro feeds seen mode fsnip e c0 hne
    unfold main_run
    rw [if_neg (by simpa [List.isEmpty_iff] using hne)]
    rfl
  · intro feeds seen mode e c0 out hout o ho
    unfold main_run at hout
    by_cases hemp : feeds.flatten.isEmpty
    · rw [if_pos hemp] at hout
      simp at hout
    · rw [if_neg hemp] at hout
      simp only [Option.some.injEq] at hout
      subst hout
      set sel := filter_new_items (merge_sort_dedupe feeds.flatten) seen mode with hsel
      set withSnip := sel.1.map (fun it =>
        let link := safe_get_str (some it.link) ""
        (it, if link = "" then "" else (fun _ : String => "") link)) with hws
      have hwsnips : ∀ p ∈ withSnip, p.2 = "" := by
        intro p hp
        rw [hws] at hp
        obtain ⟨it, _, hpr⟩ := List.mem_map.mp hp
        rw [← hpr]
        by_cases hl : safe_get_str (some it.link) "" = "" <;> simp [hl]
      have henr : ∀ r ∈ (if e.available = true then
            if argos_has_pair e "en" "zh" = true then
              (translate_items e withSnip c0).1
            else withSnip.map (fun p => ⟨p.1, p.2, "", ""⟩)
          else withSnip.map (fun p => ⟨p.1, p.2, "", ""⟩)),
          r.snippet = "" ∧ r.snippet_zh = "" := by
        intro r hr
        by_cases hav : e.available = true
        · by_cases hp : argos_has_pair e "en" "zh" = true
          · rw [if_pos hav, if_pos hp] at hr
            exact foldl_translate_snips e withSnip ([], c0) hwsnips (by simp) r hr
          · rw [if_pos hav, if_neg hp] at hr
            obtain ⟨p, hpm, hpr⟩ := List.mem_map.mp hr
            rw [← hpr]
            exact ⟨hwsnips p hpm, rfl⟩
        · rw [if_neg hav] at hr
          obtain ⟨p, hpm, hpr⟩ := List.mem_map.mp hr
          rw [← hpr]
          exact ⟨hwsnips p hpm, rfl⟩
      obtain ⟨r, hrm, hro⟩ := List.mem_map.mp ho
      rw [← hro]
      exact henr r hrm

theorem graceful_degradation_counterexample :
    (main_run [[], []] ∅ true (fun _ => "") engineOff []).1 = none := rfl

/-- The artifact content of the witness run. -/
def wOutRun : List OutItem :=
  [{ title := "T", title_zh := "", snippet := "", snippet_zh := "",
     link := "https://x/1", published := "", source := "" }]

theorem graceful_degradation_witness :
    (main_run [[wEntryA]] ∅ true (fun _ => "") engineOff []).1.isSome = true
    ∧ (∀ o ∈ wOutRun, o.snippet = "" ∧ o.snippet_zh = "") :=
  ⟨graceful_degradation.1 [[wEntryA]] ∅ true (fun _ => "") engineOff [] (by decide),
    graceful_degradation.2 [[wEntryA]] ∅ true engineOff [] wOutRun (by decide)⟩

/-! Theorems for the durable translation cache and seen set (claims C8, C9). -/

/-- A persisted cache with 30001 entries, exceeding the configured bound. -/
def bigCache : List (String × JValue) :=
  (List.range 30001).map (fun i => (toString i, JValue.jstr ""))

theorem cache_eviction_counterexample :
    save_translate_cache bigCache = JValue.jobj bigCache
    ∧ 30000 < bigCache.length := by
  refine ⟨rfl, ?_⟩
  simp [bigCache]

/-- C8 (amended): the size bound on the translation cache is enforced when
loading, not before writing back — the loaded cache never exceeds 30000 entries
and is a suffix of the persisted mapping (eviction drops the oldest entries, in
insertion order). `save_translate_cache` writes the mapping back unchanged (see
the counterexample). -/
theorem load_cache_bounded :
    ∀ file : Option JValue,
      (load_translate_cache file).length ≤ 30000
      ∧ ∀ fields : List (String × JValue),
          List.IsSuffix (load_translate_cache (some (.jobj fields))) fields := by
  intro file
  constructor
  · cases file with
    | none => simp [load_translate_cache]
    | some v =>
      cases v with
      | jobj fields =>
        simp only [load_translate_cache, Option.getD_some]
        split
        · rw [List.length_drop]
          omega
        · omega
      | jnull => simp [load_translate_cache]
      | jbool b => simp [load_translate_cache]
      | jnum n => simp [load_translate_cache]
      | jstr s => simp [load_translate_cache]
      | jarr xs => simp [load_translate_cache]
  · intro fields
    simp only [load_translate_cache, Option.getD_some]
    split
    · exact List.drop_suffix _ _
    · exact List.suffix_refl _

theorem load_cache_bounded_witness :
    (load_translate_cache (some (.jobj [("k", .jstr "v")]))).length ≤ 30000
    ∧ List.IsSuffix (load_translate_cache (some (.jobj [("k", .jstr "v")])))
        [("k", .jstr "v")] :=
  ⟨(load_cache_bounded (some (.jobj [("k", .jstr "v")]))).1,
    (load_cache_bounded (some (.jobj [("k", .jstr "v")]))).2 [("k", .jstr "v")]⟩

/-- C9: durable-state loading — a seen file whose JSON parses to a non-object
(here `[]`) raises `AttributeError` (fatal to the run), contradicting the
never-fatal contract; all other corruptions behave as specified: a missing or
unparseable file loads as the empty set, a well-formed `{seen: [strings]}`
loads to exactly that set of strings, a non-list `seen` value loads as the
empty set, and the translation cache loads as the empty mapping for every
non-object content. -/
theorem durable_state_loading :
    load_seen (some (.jarr [])) = .error "AttributeError: object has no attribute get"
    ∧ load_seen none = .ok ∅
    ∧ (∀ ss : List String,
        load_seen (some (.jobj [("seen", .jarr (ss.map JValue.jstr))])) = .ok ss.toFinset)
    ∧ (∀ s : String, load_seen (some (.jobj [("seen", .jstr s)])) = .ok ∅)
    ∧ load_seen (some (.jobj [])) = .ok ∅
    ∧ load_translate_cache none = []
    ∧ (∀ xs : List JValue, load_translate_cache (some (.jarr xs)) = [])
    ∧ (∀ s : String, load_translate_cache (some (.jstr s)) = [])
    ∧ (∀ n : Int, load_translate_cache (some (.jnum n)) = []) := by
  refine ⟨rfl, rfl, ?_, fun s => rfl, rfl, rfl, fun xs => rfl, fun s => rfl, fun n => rfl⟩
  intro ss
  show Except.ok ((ss.map JValue.jstr).map jvalToPyStr).toFinset = .ok ss.toFinset
  rw [List.map_map]
  have hid : (jvalToPyStr ∘ JValue.jstr) = id := funext fun s => rfl
  rw [hid, List.map_id]
